import Mathlib

/-!
Verification of the SSM (state-space model) core of the notebook:
discretization (bilinear/Tustin transform), recurrent scan evaluation,
convolution-kernel construction, causal convolution (direct and FFT modes),
and the HiPPO matrix generator.

Floating-point arrays are modelled as matrices/lists over an exact field
(rationals or reals/complexes); claims stated "up to floating-point
tolerance" are settled as exact identities of the corresponding exact
computations.
-/

open Matrix

namespace SSM

/-- Matrix inverse via adjugate over determinant, as a computable function over
a field.  This models the library call inv from jax.numpy.linalg: for an
invertible argument it is the true inverse (see minv_eq_inv); for a singular
argument it silently returns a garbage value (here the zero matrix, since the
determinant inverse is zero; in floating point, non-finite entries) and never
raises an exception. -/
def minv {n : ℕ} {F : Type} [Field F] (M : Matrix (Fin n) (Fin n) F) :
    Matrix (Fin n) (Fin n) F :=
  M.det⁻¹ • M.adjugate

theorem minv_eq_inv {n : ℕ} {F : Type} [Field F] (M : Matrix (Fin n) (Fin n) F) :
    minv M = M⁻¹ := by
  rw [minv, Matrix.inv_def, Ring.inverse_eq_inv']

/-- Embedding of the notebook's discretize: I = eye(N); BL = inv(I - (step/2)*A);
Ab = BL @ (I + (step/2)*A); Bb = (BL * step) @ B; return Ab, Bb, C. -/
def discretize {n : ℕ} {F : Type} [Field F] (A : Matrix (Fin n) (Fin n) F)
    (B : Matrix (Fin n) (Fin 1) F) (C : Matrix (Fin 1) (Fin n) F) (step : F) :
    Matrix (Fin n) (Fin n) F × Matrix (Fin n) (Fin 1) F × Matrix (Fin 1) (Fin n) F :=
  let I1 : Matrix (Fin n) (Fin n) F := 1
  let BL := minv (I1 - (step / 2) • A)
  let Ab := BL * (I1 + (step / 2) • A)
  let Bb := (step • BL) * B
  (Ab, Bb, C)

/-- Embedding of the notebook's scan_SSM: jax.lax.scan of the step function
x_k = Ab @ x_k_1 + Bb @ u_k, y_k = Cb @ x_k over the input sequence, carrying
the state and stacking the outputs in input order. -/
def scan_SSM {n : ℕ} {F : Type} [Field F] (Ab : Matrix (Fin n) (Fin n) F)
    (Bb : Matrix (Fin n) (Fin 1) F) (Cb : Matrix (Fin 1) (Fin n) F)
    (u : List (Fin 1 → F)) (x0 : Fin n → F) : (Fin n → F) × List (Fin 1 → F) :=
  match u with
  | [] => (x0, [])
  | uk :: rest =>
    let xk := Ab.mulVec x0 + Bb.mulVec uk
    let r := scan_SSM Ab Bb Cb rest xk
    (r.1, Cb.mulVec xk :: r.2)

/-- Embedding of the notebook's K_conv: the length-L array whose l-th entry is
the scalar (Cb @ matrix_power(Ab, l) @ Bb).reshape(). -/
def K_conv {n : ℕ} {F : Type} [Field F] (Ab : Matrix (Fin n) (Fin n) F)
    (Bb : Matrix (Fin n) (Fin 1) F) (Cb : Matrix (Fin 1) (Fin n) F) (L : ℕ) :
    List F :=
  (List.range L).map (fun l => (Cb * Ab ^ l * Bb) 0 0)

/-- Embedding of jax.scipy.signal.convolve(u, K, mode="full") for 1-D inputs:
the full discrete convolution, entry j given by the sum of u(m) * K(j - m)
over all in-range m, with output length len(u) + len(K) - 1. -/
def convolve_full {F : Type} [Field F] (u K : List F) : List F :=
  (List.range (u.length + K.length - 1)).map (fun j =>
    ∑ m ∈ Finset.range (j + 1), u.getD m 0 * K.getD (j - m) 0)

/-- Python exceptions that the embedded code can raise. -/
inductive PyErr where
  | assertionError : PyErr
  | nameError : PyErr
  | valueError : PyErr
  deriving DecidableEq

/-- Embedding of the notebook's causal_convolution, with its error behaviour.
The direct branch (nofft=True) returns convolve(u, K, mode="full") truncated
to the first len(u) entries; it compares no lengths, but the library call
itself rejects an empty operand (either u or K) with a ValueError.  The FFT
branch first runs assert K.shape[0] == u.shape[0] (AssertionError on
mismatch); with equal empty lengths the next line ud = np.fft.rfft(np.pad(u,
(0, K.shape[0]))) feeds rfft an empty array, a ValueError; otherwise the line
Kd = np.fft.rfft(mp.pad(K, (0, u.shape[0]))) references the undefined name mp
and raises a NameError.  The FFT branch never returns a value as written. -/
def causal_convolution {F : Type} [Field F] (u K : List F) (nofft : Bool) :
    Except PyErr (List F) :=
  if nofft then
    if u.length = 0 ∨ K.length = 0 then
      Except.error PyErr.valueError
    else
      Except.ok ((convolve_full u K).take u.length)
  else if K.length = u.length then
    if u.length = 0 then
      Except.error PyErr.valueError
    else
      Except.error PyErr.nameError
  else
    Except.error PyErr.assertionError

/-- Helper: unfolding of the direct branch of causal_convolution. -/
theorem causal_convolution_true_def {F : Type} [Field F] (u K : List F) :
    causal_convolution u K true =
      if u.length = 0 ∨ K.length = 0 then Except.error PyErr.valueError
      else Except.ok ((convolve_full u K).take u.length) := rfl

/-- Helper: unfolding of the FFT branch of causal_convolution. -/
theorem causal_convolution_false_def {F : Type} [Field F] (u K : List F) :
    causal_convolution u K false =
      if K.length = u.length then
        (if u.length = 0 then Except.error PyErr.valueError
         else Except.error PyErr.nameError)
      else Except.error PyErr.assertionError := rfl

/-- Lower-triangular part (diagonal included) of a square matrix, modelling
numpy.tril. -/
def tril {n : ℕ} (M : Matrix (Fin n) (Fin n) ℝ) : Matrix (Fin n) (Fin n) ℝ :=
  Matrix.of fun i j => if (j : ℕ) ≤ (i : ℕ) then M i j else 0

/-- Embedding of the notebook's make_HiPPO: P = sqrt(1 + 2*arange(N));
A = P outer P; A = tril(A) - diag(arange(N)); return -A. -/
noncomputable def make_HiPPO (N : ℕ) : Matrix (Fin N) (Fin N) ℝ :=
  let P : Fin N → ℝ := fun i => Real.sqrt (1 + 2 * (i : ℕ))
  let M : Matrix (Fin N) (Fin N) ℝ := Matrix.of (fun i j => P i * P j);
  -(tril M - Matrix.diagonal (fun i : Fin N => ((i : ℕ) : ℝ)))

/-- Error-channel form of discretize, recording which Python exceptions the
body can raise.  No operation in the body raises an exception:
jax.numpy.linalg.inv does not signal singular inputs (it silently returns
non-finite values rather than raising), so every call returns ok. -/
def discretizeE {n : ℕ} {F : Type} [Field F] (A : Matrix (Fin n) (Fin n) F)
    (B : Matrix (Fin n) (Fin 1) F) (C : Matrix (Fin 1) (Fin n) F) (step : F) :
    Except PyErr
      (Matrix (Fin n) (Fin n) F × Matrix (Fin n) (Fin 1) F × Matrix (Fin 1) (Fin n) F) :=
  Except.ok (discretize A B C step)

/-- Helper: the l-th entry of mapping f over range L. -/
theorem getD_map_range {α : Type} (f : ℕ → α) (d : α) {L l : ℕ} (h : l < L) :
    ((List.range L).map f).getD l d = f l := by
  rw [List.getD_eq_getElem _ _ (by simpa using h)]
  simp

/-- C2: for every A, B, C and step > 0 such that I - step/2·A is invertible,
discretize returns exactly the bilinear (Tustin) transform
(BL·(I + step/2·A), step·BL·B, C) with BL = (I - step/2·A)⁻¹, and has no
other effect. -/
theorem discretize_is_bilinear {n : ℕ} {F : Type} [LinearOrderedField F]
    (A : Matrix (Fin n) (Fin n) F) (B : Matrix (Fin n) (Fin 1) F)
    (C : Matrix (Fin 1) (Fin n) F) (step : F) (_hstep : 0 < step)
    (_hinv : IsUnit ((1 : Matrix (Fin n) (Fin n) F) - (step / 2) • A).det) :
    discretize A B C step =
      (((1 : Matrix (Fin n) (Fin n) F) - (step / 2) • A)⁻¹ *
          ((1 : Matrix (Fin n) (Fin n) F) + (step / 2) • A),
        step • ((((1 : Matrix (Fin n) (Fin n) F) - (step / 2) • A)⁻¹) * B),
        C) := by
  unfold discretize
  simp only [minv_eq_inv, Matrix.smul_mul]

/-- Witness for C2 at a concrete invertible input. -/
theorem discretize_is_bilinear_witness :
    (0 : ℚ) < 1 ∧
      IsUnit ((1 : Matrix (Fin 1) (Fin 1) ℚ) - ((1 : ℚ) / 2) • !![0]).det ∧
      discretize !![(0 : ℚ)] !![(1 : ℚ)] !![(1 : ℚ)] 1 =
        (((1 : Matrix (Fin 1) (Fin 1) ℚ) - ((1 : ℚ) / 2) • !![0])⁻¹ *
            ((1 : Matrix (Fin 1) (Fin 1) ℚ) + ((1 : ℚ) / 2) • !![0]),
          (1 : ℚ) • ((((1 : Matrix (Fin 1) (Fin 1) ℚ) - ((1 : ℚ) / 2) • !![0])⁻¹) * !![1]),
          !![1]) := by
  have h1 : IsUnit ((1 : Matrix (Fin 1) (Fin 1) ℚ) - ((1 : ℚ) / 2) • !![0]).det := by
    have hd : ((1 : Matrix (Fin 1) (Fin 1) ℚ) - ((1 : ℚ) / 2) • !![0]).det = 1 := by
      norm_num [Matrix.det_fin_one, Matrix.sub_apply, Matrix.smul_apply, Matrix.one_apply]
    rw [hd]
    exact isUnit_one
  exact ⟨by norm_num, h1, discretize_is_bilinear !![0] !![1] !![1] 1 (by norm_num) h1⟩

/-- C3 (amended): discretize never raises.  When (I - step/2·A) is singular it
silently returns garbage instead of signalling an error: in the exact
adjugate-over-determinant model of the library inverse the returned Ab and Bb
are zero matrices (in floating point, non-finite entries), and C is passed
through. -/
theorem discretize_singular_silent {n : ℕ} {F : Type} [Field F]
    (A : Matrix (Fin n) (Fin n) F) (B : Matrix (Fin n) (Fin 1) F)
    (C : Matrix (Fin 1) (Fin n) F) (step : F)
    (hdet : ((1 : Matrix (Fin n) (Fin n) F) - (step / 2) • A).det = 0) :
    discretizeE A B C step = Except.ok (0, 0, C) := by
  simp only [discretizeE, discretize, minv, hdet]
  simp

/-- Counterexample for C3 as stated: at the concrete singular input
(A = [[2]], step = 1, so I - step/2·A = [[0]]), discretize returns ok (with
garbage values) rather than failing with a SingularMatrixError. -/
theorem discretize_singular_no_error :
    discretizeE !![(2 : ℚ)] !![(3 : ℚ)] !![(5 : ℚ)] 1 =
      Except.ok (0, 0, !![(5 : ℚ)]) := by
  have hdet : ((1 : Matrix (Fin 1) (Fin 1) ℚ) - ((1 : ℚ) / 2) • !![2]).det = 0 := by
    norm_num [Matrix.det_fin_one, Matrix.sub_apply, Matrix.smul_apply, Matrix.one_apply]
  simp only [discretizeE, discretize, minv, hdet]
  simp

/-- Witness for the amended C3 at a different concrete singular input. -/
theorem discretize_singular_silent_witness :
    ((1 : Matrix (Fin 1) (Fin 1) ℚ) - (((1 : ℚ) / 2) / 2) • !![4]).det = 0 ∧
      discretizeE !![(4 : ℚ)] !![(6 : ℚ)] !![(7 : ℚ)] ((1 : ℚ) / 2) =
        Except.ok (0, 0, !![(7 : ℚ)]) := by
  have hd : ((1 : Matrix (Fin 1) (Fin 1) ℚ) - (((1 : ℚ) / 2) / 2) • !![4]).det = 0 := by
    norm_num [Matrix.det_fin_one, Matrix.sub_apply, Matrix.smul_apply, Matrix.one_apply]
  exact ⟨hd, discretize_singular_silent !![(4 : ℚ)] !![(6 : ℚ)] !![(7 : ℚ)] ((1 : ℚ) / 2) hd⟩

/-- Helper: the entries of the kernel built by K_conv. -/
theorem K_conv_getD {n : ℕ} {F : Type} [Field F]
    (Ab : Matrix (Fin n) (Fin n) F) (Bb : Matrix (Fin n) (Fin 1) F)
    (Cb : Matrix (Fin 1) (Fin n) F) {L l : ℕ} (hl : l < L) :
    (K_conv Ab Bb Cb L).getD l 0 = (Cb * Ab ^ l * Bb) 0 0 :=
  getD_map_range _ _ hl

/-- C4: K_conv returns a kernel of length exactly L whose l-th entry is the
scalar Cb·Ab^l·Bb for every l < L; in particular L = 0 yields the empty
kernel. -/
theorem K_conv_spec {n : ℕ} {F : Type} [Field F]
    (Ab : Matrix (Fin n) (Fin n) F) (Bb : Matrix (Fin n) (Fin 1) F)
    (Cb : Matrix (Fin 1) (Fin n) F) (L : ℕ) :
    (K_conv Ab Bb Cb L).length = L ∧
      (∀ l : ℕ, l < L → (K_conv Ab Bb Cb L).getD l 0 = (Cb * Ab ^ l * Bb) 0 0) ∧
      K_conv Ab Bb Cb 0 = [] := by
  refine ⟨by simp [K_conv], ?_, by simp [K_conv]⟩
  intro l hl
  exact K_conv_getD Ab Bb Cb hl

/-- Witness for C4 at a concrete input. -/
theorem K_conv_spec_witness :
    (K_conv !![(2 : ℚ)] !![(3 : ℚ)] !![(5 : ℚ)] 3).length = 3 ∧
      (K_conv !![(2 : ℚ)] !![(3 : ℚ)] !![(5 : ℚ)] 3).getD 1 0 =
        (!![(5 : ℚ)] * !![(2 : ℚ)] ^ 1 * !![(3 : ℚ)]) 0 0 := by
  refine ⟨(K_conv_spec !![(2 : ℚ)] !![(3 : ℚ)] !![(5 : ℚ)] 3).1, ?_⟩
  exact (K_conv_spec !![(2 : ℚ)] !![(3 : ℚ)] !![(5 : ℚ)] 3).2.1 1 (by norm_num)

/-- C5 (amended): only the FFT mode compares the kernel length with the input
length — with len(K) != len(u) it fails the shape assertion (an
AssertionError, the implementation of the shape check).  The direct mode
performs no such comparison: for every pair of nonempty operands (matched or
mismatched lengths) it returns normally; it fails only when an operand is
empty, with the library's ValueError, a nonemptiness precondition rather
than a shape check.  And with len(K) == len(u) the FFT mode still fails:
with a ValueError for empty inputs (rfft of an empty array) and otherwise
with a NameError from the undefined name mp, so it never returns a value. -/
theorem causal_convolution_error_behaviour {F : Type} [Field F] (u K : List F) :
    (1 ≤ u.length → 1 ≤ K.length →
        ∃ y, causal_convolution u K true = Except.ok y) ∧
      (u.length = 0 ∨ K.length = 0 →
        causal_convolution u K true = Except.error PyErr.valueError) ∧
      (K.length ≠ u.length →
        causal_convolution u K false = Except.error PyErr.assertionError) ∧
      (K.length = u.length → 1 ≤ u.length →
        causal_convolution u K false = Except.error PyErr.nameError) ∧
      (K.length = u.length → u.length = 0 →
        causal_convolution u K false = Except.error PyErr.valueError) := by
  refine ⟨?_, ?_, ?_, ?_, ?_⟩
  · intro hu hK
    have hcond : ¬(u.length = 0 ∨ K.length = 0) := by omega
    exact ⟨_, by rw [causal_convolution_true_def, if_neg hcond]⟩
  · intro h
    rw [causal_convolution_true_def, if_pos h]
  · intro h
    rw [causal_convolution_false_def, if_neg h]
  · intro h hu
    rw [causal_convolution_false_def, if_pos h, if_neg (by omega)]
  · intro h hu
    rw [causal_convolution_false_def, if_pos h, if_pos hu]

/-- Witness for the amended C5, exercising every branch at concrete inputs:
mismatched nonempty lengths return normally in direct mode and assert in FFT
mode; matched nonempty lengths hit the NameError in FFT mode; empty operands
hit the ValueError in both modes. -/
theorem causal_convolution_error_behaviour_witness :
    (∃ y, causal_convolution [(1 : ℚ)] [1, 2] true = Except.ok y) ∧
      causal_convolution [(1 : ℚ)] ([] : List ℚ) true = Except.error PyErr.valueError ∧
      causal_convolution [(1 : ℚ)] [1, 2] false = Except.error PyErr.assertionError ∧
      causal_convolution [(1 : ℚ), 2] [5, 6] false = Except.error PyErr.nameError ∧
      causal_convolution ([] : List ℚ) ([] : List ℚ) false =
        Except.error PyErr.valueError := by
  refine ⟨(causal_convolution_error_behaviour [(1 : ℚ)] [1, 2]).1
      (by norm_num) (by norm_num),
    (causal_convolution_error_behaviour [(1 : ℚ)] ([] : List ℚ)).2.1 (by norm_num),
    (causal_convolution_error_behaviour [(1 : ℚ)] [1, 2]).2.2.1 (by norm_num),
    (causal_convolution_error_behaviour [(1 : ℚ), 2] [5, 6]).2.2.2.1
      (by norm_num) (by norm_num),
    (causal_convolution_error_behaviour ([] : List ℚ) ([] : List ℚ)).2.2.2.2 rfl rfl⟩

/-- Counterexample for C5 as stated: in direct mode a kernel of mismatched
length (len K = 2, len u = 1) does not raise a ShapeMismatchError; the call
returns normally. -/
theorem causal_convolution_direct_no_shape_check :
    causal_convolution [(1 : ℚ)] [1, 2] true = Except.ok [1] := by
  simp [causal_convolution, convolve_full, Finset.sum_range_succ, List.range_succ]

/-- C10 (amended): in direct mode causal_convolution performs no comparison
of the kernel length with the input length: for every nonempty input u and
every nonempty kernel K — matched or mismatched lengths — it returns, without
raising, a list of length len(u) whose n-th entry is the causal sum of
K(m) * u(n-m) for m from 0 to n, out-of-range terms taken as zero.  With an
empty operand (u or K) the library convolution itself rejects the call with a
ValueError, so no length-len(u) result is produced there. -/
theorem causal_convolution_direct_spec {F : Type} [Field F] (u K : List F)
    (hu : 1 ≤ u.length) (hK : 1 ≤ K.length) :
    ∃ y, causal_convolution u K true = Except.ok y ∧ y.length = u.length ∧
      ∀ l : ℕ, l < u.length →
        y.getD l 0 = ∑ m ∈ Finset.range (l + 1), K.getD m 0 * u.getD (l - m) 0 := by
  have hcond : ¬(u.length = 0 ∨ K.length = 0) := by omega
  refine ⟨(convolve_full u K).take u.length, ?_, ?_, ?_⟩
  · rw [causal_convolution_true_def, if_neg hcond]
  · simp only [convolve_full, List.length_take, List.length_map, List.length_range]
    omega
  · intro l hl
    have hlen : l < ((convolve_full u K).take u.length).length := by
      simp only [convolve_full, List.length_take, List.length_map, List.length_range]
      omega
    rw [List.getD_eq_getElem _ _ hlen]
    simp only [List.getElem_take, convolve_full, List.getElem_map, List.getElem_range]
    rw [← Finset.sum_range_reflect]
    apply Finset.sum_congr rfl
    intro m hm
    have hm1 : m ≤ l := Nat.lt_succ_iff.mp (Finset.mem_range.mp hm)
    have h2 : l + 1 - 1 - m = l - m := by omega
    have h3 : l - (l - m) = m := by omega
    rw [h2, h3, mul_comm]

/-- Witness for the amended C10 at a concrete input. -/
theorem causal_convolution_direct_spec_witness :
    1 ≤ [(1 : ℚ), 2].length ∧ 1 ≤ [(3 : ℚ)].length ∧
      (∃ y, causal_convolution [(1 : ℚ), 2] [(3 : ℚ)] true = Except.ok y ∧
        y.length = [(1 : ℚ), 2].length ∧
        ∀ l : ℕ, l < [(1 : ℚ), 2].length →
          y.getD l 0 =
            ∑ m ∈ Finset.range (l + 1),
              [(3 : ℚ)].getD m 0 * [(1 : ℚ), 2].getD (l - m) 0) := by
  exact ⟨by norm_num, by norm_num,
    causal_convolution_direct_spec [(1 : ℚ), 2] [(3 : ℚ)] (by norm_num) (by norm_num)⟩

/-- Counterexample for C10 as stated: with the empty kernel the direct mode
does not return the claimed length-1 output — the library convolution rejects
the empty operand with a ValueError, so the call raises instead of returning
the first len(u) entries. -/
theorem causal_convolution_direct_empty_kernel :
    causal_convolution [(1 : ℚ)] ([] : List ℚ) true = Except.error PyErr.valueError ∧
      causal_convolution [(1 : ℚ)] ([] : List ℚ) true ≠ Except.ok [(0 : ℚ)] := by
  constructor
  · simp [causal_convolution]
  · simp [causal_convolution]

/-- Specified state sequence of the recurrence: x_0 = x0 and
x_(k+1) = Ab·x_k + Bb·u_(k+1) (with u indexed from zero). -/
def ssmStates {n : ℕ} {F : Type} [Field F] (Ab : Matrix (Fin n) (Fin n) F)
    (Bb : Matrix (Fin n) (Fin 1) F) (u : List (Fin 1 → F)) (x0 : Fin n → F) :
    ℕ → (Fin n → F)
  | 0 => x0
  | k + 1 => Ab.mulVec (ssmStates Ab Bb u x0 k) + Bb.mulVec (u.getD k (fun _ => 0))

/-- Helper: unfolding one input step of the specified state sequence. -/
theorem ssmStates_cons {n : ℕ} {F : Type} [Field F] (Ab : Matrix (Fin n) (Fin n) F)
    (Bb : Matrix (Fin n) (Fin 1) F) (uk : Fin 1 → F) (rest : List (Fin 1 → F))
    (x0 : Fin n → F) (k : ℕ) :
    ssmStates Ab Bb (uk :: rest) x0 (k + 1) =
      ssmStates Ab Bb rest (Ab.mulVec x0 + Bb.mulVec uk) k := by
  induction k with
  | zero => simp [ssmStates]
  | succ k ih =>
    have hstep : ssmStates Ab Bb (uk :: rest) x0 (k + 1 + 1) =
        Ab.mulVec (ssmStates Ab Bb (uk :: rest) x0 (k + 1)) +
          Bb.mulVec ((uk :: rest).getD (k + 1) (fun _ => 0)) := rfl
    rw [hstep, ih, List.getD_cons_succ]
    rfl

/-- Helper: full characterization of scan_SSM by induction on the input. -/
theorem scan_SSM_characterization {n : ℕ} {F : Type} [Field F] (Ab : Matrix (Fin n) (Fin n) F)
    (Bb : Matrix (Fin n) (Fin 1) F) (Cb : Matrix (Fin 1) (Fin n) F)
    (u : List (Fin 1 → F)) (x0 : Fin n → F) :
    (scan_SSM Ab Bb Cb u x0).1 = ssmStates Ab Bb u x0 u.length ∧
      (scan_SSM Ab Bb Cb u x0).2.length = u.length ∧
      ∀ k : ℕ, k < u.length →
        (scan_SSM Ab Bb Cb u x0).2.getD k (fun _ => 0) =
          Cb.mulVec (ssmStates Ab Bb u x0 (k + 1)) := by
  induction u generalizing x0 with
  | nil =>
    refine ⟨rfl, rfl, ?_⟩
    intro k hk
    exact absurd hk (by simp)
  | cons uk rest ih =>
    obtain ⟨ih1, ih2, ih3⟩ := ih (Ab.mulVec x0 + Bb.mulVec uk)
    refine ⟨?_, ?_, ?_⟩
    · simpa [scan_SSM, List.length_cons, ssmStates_cons] using ih1
    · simpa [scan_SSM] using ih2
    · intro k hk
      cases k with
      | zero => simp [scan_SSM, ssmStates]
      | succ k =>
        have hk2 : k < rest.length := by simpa [List.length_cons] using hk
        have := ih3 k hk2
        simpa [scan_SSM, List.getD_cons_succ, ssmStates_cons] using this

/-- C7: scan_SSM returns the pair of the final state x_L and the full output
sequence of length L in input order, where the states follow
x_k = Ab·x_(k-1) + Bb·u_k from x_0 = x0 and y_k = Cb·x_k. -/
theorem scan_SSM_spec {n : ℕ} {F : Type} [Field F] (Ab : Matrix (Fin n) (Fin n) F)
    (Bb : Matrix (Fin n) (Fin 1) F) (Cb : Matrix (Fin 1) (Fin n) F)
    (u : List (Fin 1 → F)) (x0 : Fin n → F) :
    (scan_SSM Ab Bb Cb u x0).1 = ssmStates Ab Bb u x0 u.length ∧
      (scan_SSM Ab Bb Cb u x0).2.length = u.length ∧
      ∀ k : ℕ, k < u.length →
        (scan_SSM Ab Bb Cb u x0).2.getD k (fun _ => 0) =
          Cb.mulVec (ssmStates Ab Bb u x0 (k + 1)) :=
  scan_SSM_characterization Ab Bb Cb u x0

/-- Witness for C7 at a concrete one-dimensional system. -/
theorem scan_SSM_spec_witness :
    (scan_SSM !![(2 : ℚ)] !![(1 : ℚ)] !![(3 : ℚ)] [fun _ => (1 : ℚ)] (fun _ => 0)).2.getD 0
        (fun _ => 0) =
      (!![(3 : ℚ)]).mulVec
        (ssmStates !![(2 : ℚ)] !![(1 : ℚ)] [fun _ => (1 : ℚ)] (fun _ => 0) 1) := by
  exact (scan_SSM_spec !![(2 : ℚ)] !![(1 : ℚ)] !![(3 : ℚ)] [fun _ => (1 : ℚ)]
    (fun _ => 0)).2.2 0 (by norm_num)

/-- Helper: matrix-vector product distributes over finite sums of vectors. -/
theorem mulVec_sum_range {n m : ℕ} {F : Type} [Field F] (M : Matrix (Fin m) (Fin n) F)
    (k : ℕ) (f : ℕ → Fin n → F) :
    M.mulVec (∑ j ∈ Finset.range k, f j) = ∑ j ∈ Finset.range k, M.mulVec (f j) := by
  rw [← Matrix.mulVecLin_apply, map_sum]
  simp [Matrix.mulVecLin_apply]

/-- Closed form of the recurrence from the zero state: the k-th state is the
sum over j < k of Ab^(k-1-j) · Bb · u_j. -/
theorem ssmStates_zero_closed {n : ℕ} {F : Type} [Field F]
    (Ab : Matrix (Fin n) (Fin n) F) (Bb : Matrix (Fin n) (Fin 1) F)
    (u : List (Fin 1 → F)) (k : ℕ) :
    ssmStates Ab Bb u (fun _ => 0) k =
      ∑ j ∈ Finset.range k, (Ab ^ (k - 1 - j)).mulVec (Bb.mulVec (u.getD j (fun _ => 0))) := by
  induction k with
  | zero => funext i; simp [ssmStates]
  | succ k ih =>
    have hrec : ssmStates Ab Bb u (fun _ => 0) (k + 1) =
        Ab.mulVec (ssmStates Ab Bb u (fun _ => 0) k) +
          Bb.mulVec (u.getD k (fun _ => 0)) := rfl
    rw [hrec, ih, mulVec_sum_range, Finset.sum_range_succ]
    congr 1
    · apply Finset.sum_congr rfl
      intro j hj
      have hj1 : j < k := Finset.mem_range.mp hj
      rw [Matrix.mulVec_mulVec, ← pow_succ']
      have he : k - 1 - j + 1 = k + 1 - 1 - j := by omega
      rw [he]
    · have h0 : k + 1 - 1 - k = 0 := by omega
      rw [h0, pow_zero, Matrix.one_mulVec]

/-- Helper: a 1-by-1 matrix applied to a constant one-entry vector scales the
constant by the single matrix entry. -/
theorem mulVec_const_entry {F : Type} [Field F] (M : Matrix (Fin 1) (Fin 1) F) (c : F) :
    M.mulVec (fun _ => c) 0 = M 0 0 * c := by
  simp [Matrix.mulVec, dotProduct]

/-- Recurrence/convolution duality, the mathematical identity that
test_cnn_is_rnn was meant to check (C1): for every discrete system, scanning
from the zero state computes exactly the truncated full convolution of the
input with the kernel K_conv of matching length — the value the direct mode
of causal_convolution returns. -/
theorem scan_SSM_eq_direct_convolution {n : ℕ} {F : Type} [Field F]
    (Ab : Matrix (Fin n) (Fin n) F) (Bb : Matrix (Fin n) (Fin 1) F)
    (Cb : Matrix (Fin 1) (Fin n) F) (u : List F) :
    (scan_SSM Ab Bb Cb (u.map (fun a _ => a)) (fun _ => 0)).2.map (fun v => v 0) =
      (convolve_full u (K_conv Ab Bb Cb u.length)).take u.length := by
  obtain ⟨h1, h2, h3⟩ := scan_SSM_characterization Ab Bb Cb (u.map (fun a _ => a)) (fun _ => 0)
  have hKlen : (K_conv Ab Bb Cb u.length).length = u.length := by simp [K_conv]
  have hL2 : (scan_SSM Ab Bb Cb (u.map (fun a _ => a)) (fun _ => 0)).2.length = u.length := by
    simpa using h2
  apply List.ext_getElem
  · simp only [List.length_map, List.length_take, List.length_range, convolve_full, hKlen,
      hL2]
    omega
  · intro k hk1 hk2
    have hkL : k < u.length := by simpa [hL2] using hk1
    have hscan : (scan_SSM Ab Bb Cb (u.map (fun a _ => a)) (fun _ => 0)).2.getD k
        (fun _ => 0) =
        Cb.mulVec (ssmStates Ab Bb (u.map (fun a _ => a)) (fun _ => 0) (k + 1)) :=
      h3 k (by simpa using hkL)
    rw [List.getD_eq_getElem _ _ (by simpa [hL2] using hkL)] at hscan
    rw [List.getElem_map, hscan, ssmStates_zero_closed, mulVec_sum_range]
    have hconv : ((convolve_full u (K_conv Ab Bb Cb u.length)).take u.length)[k] =
        ∑ m ∈ Finset.range (k + 1),
          u.getD m 0 * (K_conv Ab Bb Cb u.length).getD (k - m) 0 := by
      simp only [List.getElem_take, convolve_full, List.getElem_map, List.getElem_range]
    rw [hconv, Finset.sum_apply]
    apply Finset.sum_congr rfl
    intro m hm
    have hm1 : m ≤ k := Nat.lt_succ_iff.mp (Finset.mem_range.mp hm)
    have hgu : (u.map (fun a (_ : Fin 1) => a)).getD m (fun _ => 0) =
        fun _ => u.getD m 0 := by
      funext i
      rw [List.getD_eq_getElem _ _ (by simpa using lt_of_le_of_lt hm1 hkL)]
      rw [List.getElem_map, List.getD_eq_getElem _ _ (lt_of_le_of_lt hm1 hkL)]
    have hK : (K_conv Ab Bb Cb u.length).getD (k - m) 0 =
        (Cb * Ab ^ (k - m) * Bb) 0 0 :=
      K_conv_getD Ab Bb Cb (by clear hk1; omega)
    have hpow : k + 1 - 1 - m = k - m := by clear hk1; omega
    rw [hgu, hpow, Matrix.mulVec_mulVec, Matrix.mulVec_mulVec, mulVec_const_entry, hK,
      mul_comm]

/-- C1 failing evaluation: at a concrete valid system (N = 1, A = [[0]],
B = [[1]], C = [[1]], step = 1) and input u = [1], the convolution side of the
claimed identity, invoked as in test_cnn_is_rnn (default nofft=False, the FFT
branch), raises a NameError because of the undefined name mp — so the
recurrence and convolution outputs can never be compared as the code stands. -/
theorem cnn_rnn_equivalence_crashes :
    causal_convolution [(1 : ℚ)]
        (K_conv (discretize !![(0 : ℚ)] !![(1 : ℚ)] !![(1 : ℚ)] 1).1
          (discretize !![(0 : ℚ)] !![(1 : ℚ)] !![(1 : ℚ)] 1).2.1
          (discretize !![(0 : ℚ)] !![(1 : ℚ)] !![(1 : ℚ)] 1).2.2 1) false =
      Except.error PyErr.nameError := by
  simp [causal_convolution, K_conv]

/-- C6 failing evaluation: on equal-length concrete inputs the FFT mode raises
a NameError (undefined name mp in the line computing Kd) instead of returning
a value, while the direct mode on the same inputs returns the causal
convolution; as written the two modes can never agree. -/
theorem fft_mode_crashes :
    causal_convolution [(1 : ℚ), 2] [(3 : ℚ), 4] false = Except.error PyErr.nameError ∧
      causal_convolution [(1 : ℚ), 2] [(3 : ℚ), 4] true = Except.ok [3, 10] := by
  constructor
  · simp [causal_convolution]
  · simp [causal_convolution, convolve_full, Finset.sum_range_succ, List.range_succ]
    norm_num

/-- C8: make_HiPPO is the pure function of N computing
-(tril(P outer P) - diag(0..N-1)) for P(i) = sqrt(1+2i): elementwise it is
-(i+1) on the diagonal, -sqrt(1+2i)·sqrt(1+2j) strictly below it, and 0 above
it.  Determinism is immediate: the value depends on N alone. -/
theorem make_HiPPO_spec (N : ℕ) (i j : Fin N) :
    make_HiPPO N i j =
      if i = j then -(((i : ℕ) : ℝ) + 1)
      else if (j : ℕ) < (i : ℕ) then
        -(Real.sqrt (1 + 2 * (i : ℕ)) * Real.sqrt (1 + 2 * (j : ℕ)))
      else 0 := by
  unfold make_HiPPO tril
  simp only [Matrix.neg_apply, Matrix.sub_apply, Matrix.of_apply]
  by_cases hij : i = j
  · subst hij
    rw [Matrix.diagonal_apply_eq, if_pos rfl, if_pos le_rfl,
      Real.mul_self_sqrt (by positivity)]
    ring
  · rw [Matrix.diagonal_apply_ne _ hij, if_neg hij]
    have hne : (i : ℕ) ≠ (j : ℕ) := fun h => hij (Fin.val_injective h)
    by_cases hlt : (j : ℕ) < (i : ℕ)
    · rw [if_pos (le_of_lt hlt), if_pos hlt]
      ring
    · rw [if_neg (by omega), if_neg hlt]
      ring

/-- Helper: at step = 0 the discretized transition matrix is exactly the
identity. -/
theorem discretize_zero_step {n : ℕ} (A : Matrix (Fin n) (Fin n) ℝ)
    (B : Matrix (Fin n) (Fin 1) ℝ) (C : Matrix (Fin 1) (Fin n) ℝ) :
    (discretize A B C 0).1 = 1 := by
  simp [discretize, minv]

/-- Helper: the map sending the step size to the discretized transition matrix
is continuous at step = 0. -/
theorem discretize_Ab_continuousAt {n : ℕ} (A : Matrix (Fin n) (Fin n) ℝ)
    (B : Matrix (Fin n) (Fin 1) ℝ) (C : Matrix (Fin 1) (Fin n) ℝ) :
    ContinuousAt (fun s : ℝ => (discretize A B C s).1) 0 := by
  have hD : Continuous fun s : ℝ => (1 : Matrix (Fin n) (Fin n) ℝ) - (s / 2) • A :=
    continuous_const.sub ((continuous_id.div_const 2).smul continuous_const)
  have hR : Continuous fun s : ℝ => (1 : Matrix (Fin n) (Fin n) ℝ) + (s / 2) • A :=
    continuous_const.add ((continuous_id.div_const 2).smul continuous_const)
  have hdet : Continuous fun s : ℝ =>
      ((1 : Matrix (Fin n) (Fin n) ℝ) - (s / 2) • A).det := hD.matrix_det
  have hdet0 : ((1 : Matrix (Fin n) (Fin n) ℝ) - ((0 : ℝ) / 2) • A).det = 1 := by
    simp
  have hinvdet : ContinuousAt (fun s : ℝ =>
      (((1 : Matrix (Fin n) (Fin n) ℝ) - (s / 2) • A).det)⁻¹) 0 :=
    hdet.continuousAt.inv₀ (by rw [hdet0]; norm_num)
  have hadj : Continuous fun s : ℝ =>
      ((1 : Matrix (Fin n) (Fin n) ℝ) - (s / 2) • A).adjugate := hD.matrix_adjugate
  have hmain : ContinuousAt (fun s : ℝ =>
      (minv ((1 : Matrix (Fin n) (Fin n) ℝ) - (s / 2) • A)) *
        ((1 : Matrix (Fin n) (Fin n) ℝ) + (s / 2) • A)) 0 := by
    unfold minv
    exact (hinvdet.smul hadj.continuousAt).mul hR.continuousAt
  exact hmain

/-- C9: for every fixed A (and any B, C) and every tolerance, there is a
positive bound on the step size below which every entry of the discretized
transition matrix Ab returned by discretize is within the tolerance of the
identity matrix: Ab converges to I as the step size goes to zero. -/
theorem discretize_Ab_limit_identity {n : ℕ} (A : Matrix (Fin n) (Fin n) ℝ)
    (B : Matrix (Fin n) (Fin 1) ℝ) (C : Matrix (Fin 1) (Fin n) ℝ)
    (ε : ℝ) (hε : 0 < ε) :
    ∃ δ > (0 : ℝ), ∀ step : ℝ, 0 < step → step < δ →
      ∀ i j, |(discretize A B C step).1 i j - (1 : Matrix (Fin n) (Fin n) ℝ) i j| < ε := by
  have hg : Filter.Tendsto (fun s : ℝ => (discretize A B C s).1) (nhds 0)
      (nhds (1 : Matrix (Fin n) (Fin n) ℝ)) := by
    have := (discretize_Ab_continuousAt A B C).tendsto
    rwa [discretize_zero_step A B C] at this
  have hentry : ∀ i j : Fin n, Filter.Tendsto
      (fun s : ℝ => (discretize A B C s).1 i j) (nhds 0)
      (nhds ((1 : Matrix (Fin n) (Fin n) ℝ) i j)) := by
    intro i j
    exact (tendsto_pi_nhds.mp (tendsto_pi_nhds.mp hg i) j)
  have hev : ∀ᶠ s in nhds (0 : ℝ), ∀ i j : Fin n,
      |(discretize A B C s).1 i j - (1 : Matrix (Fin n) (Fin n) ℝ) i j| < ε := by
    rw [Filter.eventually_all]
    intro i
    rw [Filter.eventually_all]
    intro j
    have := (Metric.tendsto_nhds.mp (hentry i j)) ε hε
    simpa [Real.dist_eq] using this
  obtain ⟨δ, hδ, hball⟩ := Metric.eventually_nhds_iff.mp hev
  refine ⟨δ, hδ, ?_⟩
  intro step hpos hlt
  exact hball (by rw [Real.dist_eq, sub_zero, abs_of_pos hpos]; exact hlt)

/-- Witness for C9 at a concrete matrix and tolerance. -/
theorem discretize_Ab_limit_identity_witness :
    (0 : ℝ) < 1 ∧
      ∃ δ > (0 : ℝ), ∀ step : ℝ, 0 < step → step < δ →
        ∀ i j, |(discretize !![(1 : ℝ)] !![(1 : ℝ)] !![(1 : ℝ)] step).1 i j -
          (1 : Matrix (Fin 1) (Fin 1) ℝ) i j| < 1 :=
  ⟨by norm_num,
    discretize_Ab_limit_identity !![(1 : ℝ)] !![(1 : ℝ)] !![(1 : ℝ)] 1 (by norm_num)⟩

/-- The unit phase factor: e2 x = exp(2·pi·i·x). -/
noncomputable def e2 (x : ℂ) : ℂ :=
  Complex.exp (2 * (Real.pi : ℂ) * Complex.I * x)

theorem e2_add (x y : ℂ) : e2 x * e2 y = e2 (x + y) := by
  unfold e2
  rw [← Complex.exp_add]
  congr 1
  ring

theorem e2_int (t : ℤ) : e2 (t : ℂ) = 1 := by
  unfold e2
  rw [show 2 * (Real.pi : ℂ) * Complex.I * (t : ℂ) =
    (t : ℂ) * (2 * (Real.pi : ℂ) * Complex.I) from by ring]
  exact Complex.exp_int_mul_two_pi_mul_I t

theorem e2_nat_mul (k : ℕ) (x : ℂ) : e2 ((k : ℂ) * x) = e2 x ^ k := by
  unfold e2
  rw [← Complex.exp_nat_mul]
  congr 1
  ring

/-- Conjugation reflects the phase when the phase argument is conjugation
invariant (a real number). -/
theorem conj_e2 (x : ℂ) (hx : (starRingEnd ℂ) x = x) :
    (starRingEnd ℂ) (e2 x) = e2 (-x) := by
  unfold e2
  rw [← Complex.exp_conj]
  congr 1
  rw [show (2 : ℂ) * (Real.pi : ℂ) * Complex.I * x =
    (2 * (Real.pi : ℂ)) * (Complex.I * x) from by ring]
  rw [map_mul (starRingEnd ℂ) (2 * (Real.pi : ℂ)) (Complex.I * x),
    map_mul (starRingEnd ℂ) Complex.I x, hx]
  simp only [map_mul (starRingEnd ℂ) (2 : ℂ) (Real.pi : ℂ), Complex.conj_I,
    Complex.conj_ofReal, map_ofNat]
  ring

/-- Root-of-unity orthogonality: the phases e2(m·k/n) summed over k < n
cancel unless n divides m, in which case each phase is 1. -/
theorem e2_sum_orthogonality (n : ℕ) (hn : 0 < n) (m : ℤ) :
    ∑ k ∈ Finset.range n, e2 ((m : ℂ) * (k : ℂ) / (n : ℂ)) =
      if (n : ℤ) ∣ m then (n : ℂ) else 0 := by
  have hn0 : (n : ℂ) ≠ 0 := Nat.cast_ne_zero.mpr hn.ne'
  by_cases hdvd : (n : ℤ) ∣ m
  · obtain ⟨t, ht⟩ := hdvd
    rw [if_pos ⟨t, ht⟩]
    have hterm : ∀ k ∈ Finset.range n, e2 ((m : ℂ) * (k : ℂ) / (n : ℂ)) = 1 := by
      intro k _
      have harg : (m : ℂ) * (k : ℂ) / (n : ℂ) = ((t * k : ℤ) : ℂ) := by
        rw [ht]
        push_cast
        field_simp
        ring
      rw [harg, e2_int]
    rw [Finset.sum_congr rfl hterm]
    simp
  · rw [if_neg hdvd]
    have hzk : ∀ k : ℕ, e2 ((m : ℂ) * (k : ℂ) / (n : ℂ)) =
        e2 ((m : ℂ) / (n : ℂ)) ^ k := by
      intro k
      rw [← e2_nat_mul]
      congr 1
      ring
    have hz1 : e2 ((m : ℂ) / (n : ℂ)) ≠ 1 := by
      intro h1
      obtain ⟨t, ht⟩ := Complex.exp_eq_one_iff.mp h1
      apply hdvd
      refine ⟨t, ?_⟩
      have h2πI : 2 * (Real.pi : ℂ) * Complex.I ≠ 0 := by
        simp [Complex.ofReal_ne_zero, Real.pi_ne_zero, Complex.I_ne_zero]
      have hmn : (m : ℂ) = (t : ℂ) * (n : ℂ) := by
        have hne : 2 * (Real.pi : ℂ) * Complex.I / (n : ℂ) ≠ 0 :=
          div_ne_zero h2πI hn0
        apply mul_left_cancel₀ hne
        calc 2 * (Real.pi : ℂ) * Complex.I / (n : ℂ) * (m : ℂ)
            = 2 * (Real.pi : ℂ) * Complex.I * ((m : ℂ) / (n : ℂ)) := by ring
          _ = (t : ℂ) * (2 * Real.pi * Complex.I) := ht
          _ = 2 * (Real.pi : ℂ) * Complex.I / (n : ℂ) * ((t : ℂ) * (n : ℂ)) := by
              field_simp
              ring
      have hmn2 : (m : ℂ) = (n : ℂ) * (t : ℂ) := by rw [hmn]; ring
      exact_mod_cast hmn2
    have hzn : e2 ((m : ℂ) / (n : ℂ)) ^ n = 1 := by
      rw [← e2_nat_mul]
      have harg : (n : ℂ) * ((m : ℂ) / (n : ℂ)) = ((m : ℤ) : ℂ) := by
        field_simp
      rw [harg, e2_int]
    calc ∑ k ∈ Finset.range n, e2 ((m : ℂ) * (k : ℂ) / (n : ℂ))
        = ∑ k ∈ Finset.range n, e2 ((m : ℂ) / (n : ℂ)) ^ k :=
          Finset.sum_congr rfl (fun k _ => hzk k)
      _ = (e2 ((m : ℂ) / (n : ℂ)) ^ n - 1) / (e2 ((m : ℂ) / (n : ℂ)) - 1) :=
          geom_sum_eq hz1 n
      _ = 0 := by rw [hzn]; simp

/-- Discrete Fourier transform of the first n samples of the sequence a:
X(k) = sum over j < n of a(j)·e2(-(j·k)/n).  numpy.fft.rfft of a length-n real
input returns exactly these coefficients for k = 0 .. n/2. -/
noncomputable def dftc (n : ℕ) (a : ℕ → ℂ) (k : ℕ) : ℂ :=
  ∑ j ∈ Finset.range n, a j * e2 (-((j : ℂ) * (k : ℂ)) / (n : ℂ))

/-- numpy.fft.irfft with even output length n, fed a half spectrum b given on
indices 0 .. n/2: extend b to length n by Hermitian symmetry and apply the
inverse DFT, x(j) = (1/n)·sum over k < n of ext(b)(k)·e2((j·k)/n). -/
noncomputable def irfftc (n : ℕ) (b : ℕ → ℂ) (j : ℕ) : ℂ :=
  (∑ k ∈ Finset.range n,
      (if 2 * k ≤ n then b k else (starRingEnd ℂ) (b (n - k))) *
        e2 ((j : ℂ) * (k : ℂ) / (n : ℂ))) / (n : ℂ)

/-- Helper: quotients of natural-number products are conjugation invariant. -/
theorem conj_neg_ratio (a b c : ℕ) :
    (starRingEnd ℂ) (-((a : ℂ) * (b : ℂ)) / (c : ℂ)) =
      -((a : ℂ) * (b : ℂ)) / (c : ℂ) := by
  rw [map_div₀]
  rw [map_neg (starRingEnd ℂ) ((a : ℂ) * (b : ℂ))]
  rw [map_mul (starRingEnd ℂ) (a : ℂ) (b : ℂ)]
  rw [Complex.conj_natCast, Complex.conj_natCast, Complex.conj_natCast]

/-- Conjugate symmetry of the DFT of a real sequence: X(n-k) = conj(X(k)) for
k ≤ n. -/
theorem dftc_real_conj_symm (n : ℕ) (hn : 0 < n) (a : ℕ → ℂ)
    (ha : ∀ j, (starRingEnd ℂ) (a j) = a j) (k : ℕ) (hk : k ≤ n) :
    dftc n a (n - k) = (starRingEnd ℂ) (dftc n a k) := by
  have hn0 : (n : ℂ) ≠ 0 := Nat.cast_ne_zero.mpr hn.ne'
  unfold dftc
  rw [map_sum (starRingEnd ℂ)]
  apply Finset.sum_congr rfl
  intro j _
  rw [map_mul (starRingEnd ℂ) (a j), ha j, conj_e2 _ (conj_neg_ratio j k n)]
  congr 1
  have hnk : ((n - k : ℕ) : ℂ) = (n : ℂ) - (k : ℂ) := by
    push_cast [hk]
    ring
  rw [hnk]
  have hsplit : -((j : ℂ) * ((n : ℂ) - (k : ℂ))) / (n : ℂ) =
      ((-(j : ℤ) : ℤ) : ℂ) + (j : ℂ) * (k : ℂ) / (n : ℂ) := by
    push_cast
    field_simp
    ring
  rw [hsplit, ← e2_add, e2_int, one_mul, neg_div]
  congr 1
  ring

/-- Discrete convolution theorem for the zero-padded real FFT pipeline: for
two real sequences supported on the first L indices, the inverse real FFT of
the pointwise product of their length-2L DFTs evaluates, at every output
index j < L, to the causal convolution sum of the two sequences (the
zero padding prevents circular wraparound). -/
theorem irfftc_dftc_product (L : ℕ) (hL : 0 < L) (a b : ℕ → ℂ)
    (ha : ∀ j, (starRingEnd ℂ) (a j) = a j) (hb : ∀ j, (starRingEnd ℂ) (b j) = b j)
    (haL : ∀ j, L ≤ j → a j = 0) (hbL : ∀ j, L ≤ j → b j = 0)
    (j : ℕ) (hj : j < L) :
    irfftc (2 * L) (fun k => dftc (2 * L) a k * dftc (2 * L) b k) j =
      ∑ m ∈ Finset.range (j + 1), a m * b (j - m) := by
  set n := 2 * L with hn_def
  have hn : 0 < n := by omega
  have hn0 : (n : ℂ) ≠ 0 := Nat.cast_ne_zero.mpr hn.ne'
  unfold irfftc
  have hcollapse : ∀ k ∈ Finset.range n,
      (if 2 * k ≤ n then dftc n a k * dftc n b k
        else (starRingEnd ℂ) (dftc n a (n - k) * dftc n b (n - k))) *
          e2 ((j : ℂ) * (k : ℂ) / (n : ℂ)) =
        dftc n a k * dftc n b k * e2 ((j : ℂ) * (k : ℂ) / (n : ℂ)) := by
    intro k hk
    by_cases h2k : 2 * k ≤ n
    · rw [if_pos h2k]
    · rw [if_neg h2k]
      congr 1
      rw [map_mul (starRingEnd ℂ) (dftc n a (n - k)) (dftc n b (n - k))]
      rw [dftc_real_conj_symm n hn a ha k (le_of_lt (Finset.mem_range.mp hk)),
        dftc_real_conj_symm n hn b hb k (le_of_lt (Finset.mem_range.mp hk)),
        Complex.conj_conj, Complex.conj_conj]
  rw [Finset.sum_congr rfl hcollapse]
  have hker : ∀ k : ℕ, dftc n a k * dftc n b k * e2 ((j : ℂ) * (k : ℂ) / (n : ℂ)) =
      ∑ p ∈ Finset.range n, ∑ q ∈ Finset.range n,
        a p * b q * e2 ((((j : ℤ) - (p : ℤ) - (q : ℤ) : ℤ) : ℂ) * (k : ℂ) / (n : ℂ)) := by
    intro k
    unfold dftc
    rw [Finset.sum_mul_sum, Finset.sum_mul]
    apply Finset.sum_congr rfl
    intro p _
    rw [Finset.sum_mul]
    apply Finset.sum_congr rfl
    intro q _
    rw [show a p * e2 (-((p : ℂ) * (k : ℂ)) / (n : ℂ)) *
        (b q * e2 (-((q : ℂ) * (k : ℂ)) / (n : ℂ))) * e2 ((j : ℂ) * (k : ℂ) / (n : ℂ)) =
      a p * b q * (e2 (-((p : ℂ) * (k : ℂ)) / (n : ℂ)) *
        e2 (-((q : ℂ) * (k : ℂ)) / (n : ℂ)) * e2 ((j : ℂ) * (k : ℂ) / (n : ℂ))) from by
      ring]
    congr 1
    rw [e2_add, e2_add, div_add_div_same, div_add_div_same]
    congr 1
    push_cast
    ring
  rw [Finset.sum_congr rfl (fun k _ => hker k), Finset.sum_comm]
  have hswap : ∀ p ∈ Finset.range n,
      (∑ k ∈ Finset.range n, ∑ q ∈ Finset.range n,
        a p * b q * e2 ((((j : ℤ) - (p : ℤ) - (q : ℤ) : ℤ) : ℂ) * (k : ℂ) / (n : ℂ))) =
      ∑ q ∈ Finset.range n, a p * b q *
        (if (n : ℤ) ∣ ((j : ℤ) - (p : ℤ) - (q : ℤ)) then (n : ℂ) else 0) := by
    intro p _
    rw [Finset.sum_comm]
    apply Finset.sum_congr rfl
    intro q _
    rw [← Finset.mul_sum, e2_sum_orthogonality n hn ((j : ℤ) - (p : ℤ) - (q : ℤ))]
  rw [Finset.sum_congr rfl hswap]
  have hrestrp : (∑ p ∈ Finset.range n, ∑ q ∈ Finset.range n, a p * b q *
      (if (n : ℤ) ∣ ((j : ℤ) - (p : ℤ) - (q : ℤ)) then (n : ℂ) else 0)) =
      ∑ p ∈ Finset.range L, ∑ q ∈ Finset.range L, a p * b q *
        (if (n : ℤ) ∣ ((j : ℤ) - (p : ℤ) - (q : ℤ)) then (n : ℂ) else 0) := by
    rw [← Finset.sum_subset (Finset.range_subset.mpr (by omega : L ≤ n))]
    · apply Finset.sum_congr rfl
      intro p _
      rw [← Finset.sum_subset (Finset.range_subset.mpr (by omega : L ≤ n))]
      intro q _ hq
      rw [hbL q (by simpa using hq)]
      ring
    · intro p _ hp
      apply Finset.sum_eq_zero
      intro q _
      rw [haL p (by simpa using hp)]
      ring
  rw [hrestrp]
  have hindicator : ∀ p ∈ Finset.range L, ∀ q ∈ Finset.range L,
      a p * b q * (if (n : ℤ) ∣ ((j : ℤ) - (p : ℤ) - (q : ℤ)) then (n : ℂ) else 0) =
      a p * b q * (if p + q = j then (n : ℂ) else 0) := by
    intro p hp q hq
    have hpL : p < L := Finset.mem_range.mp hp
    have hqL : q < L := Finset.mem_range.mp hq
    congr 1
    by_cases hpq : p + q = j
    · have h0 : ((j : ℤ) - (p : ℤ) - (q : ℤ)) = 0 := by omega
      rw [h0, if_pos (dvd_zero _), if_pos hpq]
    · rw [if_neg hpq, if_neg ?_]
      intro hdvd
      have hzero : ((j : ℤ) - (p : ℤ) - (q : ℤ)) = 0 := by
        refine Int.eq_zero_of_dvd_of_natAbs_lt_natAbs hdvd ?_
        omega
      exact hpq (by omega)
  rw [Finset.sum_congr rfl (fun p hp =>
    Finset.sum_congr rfl (fun q hq => hindicator p hp q hq))]
  have hinner : ∀ p ∈ Finset.range L,
      (∑ q ∈ Finset.range L, a p * b q * (if p + q = j then (n : ℂ) else 0)) =
      (if p ≤ j then a p * b (j - p) * (n : ℂ) else 0) := by
    intro p _
    by_cases hpj : p ≤ j
    · rw [if_pos hpj]
      rw [Finset.sum_eq_single_of_mem (j - p) (Finset.mem_range.mpr (by omega))]
      · rw [if_pos (by omega)]
      · intro q _ hqne
        rw [if_neg (by omega)]
        ring
    · rw [if_neg hpj]
      apply Finset.sum_eq_zero
      intro q _
      rw [if_neg (by omega)]
      ring
  rw [Finset.sum_congr rfl hinner]
  have hfinal : (∑ p ∈ Finset.range L,
      (if p ≤ j then a p * b (j - p) * (n : ℂ) else 0)) =
      ∑ p ∈ Finset.range (j + 1), a p * b (j - p) * (n : ℂ) := by
    rw [← Finset.sum_subset (Finset.range_subset.mpr (by omega : j + 1 ≤ L))
      (fun p _ hp => by rw [if_neg (by simpa [Nat.lt_succ_iff] using hp)])]
    apply Finset.sum_congr rfl
    intro p hp
    rw [if_pos (Nat.lt_succ_iff.mp (Finset.mem_range.mp hp))]
  rw [hfinal, ← Finset.sum_mul, mul_div_assoc, div_self hn0, mul_one]

/-- Modelled from the spec (and the evident intent of the code): the FFT
branch of causal_convolution with the undefined name mp read as np — zero-pad
u by len(K) and K by len(u), take the real-input FFTs of the padded arrays,
multiply elementwise, inverse-FFT, and keep the first len(u) samples.  The
zero-padded arrays are modelled as total index functions vanishing beyond the
list, and rfft/irfft by their defining formulas dftc and irfftc. -/
noncomputable def causal_convolution_fft (u K : List ℂ) : List ℂ :=
  let n := u.length + K.length
  let ud := dftc n (fun j => u.getD j 0)
  let Kd := dftc n (fun j => K.getD j 0)
  (List.range u.length).map (irfftc n (fun k => ud k * Kd k))

/-- Helper: reading a real list through the complex casting map commutes with
getD at the zero default. -/
theorem getD_map_ofReal (u : List ℝ) (j : ℕ) :
    (u.map (fun x : ℝ => (x : ℂ))).getD j 0 = ((u.getD j 0 : ℝ) : ℂ) := by
  by_cases hj : j < u.length
  · rw [List.getD_eq_getElem _ _ (by simpa using hj), List.getElem_map,
      List.getD_eq_getElem _ _ hj]
  · rw [List.getD_eq_default _ _ (by simpa using not_lt.mp hj),
      List.getD_eq_default _ _ (not_lt.mp hj), Complex.ofReal_zero]

/-- The FFT branch as intended (the undefined mp read as np) agrees exactly
with the direct branch: for real inputs of equal length the fixed FFT
pipeline returns precisely the truncated full convolution.  This is the
equivalence that C6 asserts and that the mp typo prevents the shipped code
from ever exhibiting. -/
theorem causal_convolution_fft_eq_direct (u K : List ℝ) (hlen : K.length = u.length) :
    causal_convolution_fft (u.map (fun x : ℝ => (x : ℂ))) (K.map (fun x : ℝ => (x : ℂ))) =
      ((convolve_full u K).take u.length).map (fun x : ℝ => (x : ℂ)) := by
  rcases Nat.eq_zero_or_pos u.length with hL0 | hL
  · have hu : u = [] := List.length_eq_zero.mp hL0
    have hK : K = [] := List.length_eq_zero.mp (by omega)
    subst hu
    subst hK
    rfl
  · have hn2 : (u.map (fun x : ℝ => (x : ℂ))).length +
        (K.map (fun x : ℝ => (x : ℂ))).length = 2 * u.length := by
      simp [hlen]
      ring
    apply List.ext_getElem
    · simp only [causal_convolution_fft, convolve_full, List.length_map,
        List.length_range, List.length_take, hlen]
      omega
    · intro j hj1 hj2
      have hjL : j < u.length := by
        simpa [causal_convolution_fft] using hj1
      have hLHS : (causal_convolution_fft (u.map (fun x : ℝ => (x : ℂ)))
          (K.map (fun x : ℝ => (x : ℂ))))[j] =
          irfftc (2 * u.length)
            (fun k => dftc (2 * u.length) (fun i => (u.map (fun x : ℝ => (x : ℂ))).getD i 0) k *
              dftc (2 * u.length) (fun i => (K.map (fun x : ℝ => (x : ℂ))).getD i 0) k) j := by
        simp only [causal_convolution_fft, hn2, List.getElem_map, List.getElem_range]
      rw [hLHS]
      rw [irfftc_dftc_product u.length hL _ _
        (fun i => by rw [getD_map_ofReal]; exact Complex.conj_ofReal _)
        (fun i => by rw [getD_map_ofReal]; exact Complex.conj_ofReal _)
        (fun i hi => by
          rw [List.getD_eq_default _ _ (by simpa using hi)])
        (fun i hi => by
          rw [List.getD_eq_default _ _ (by simpa [hlen] using hi)])
        j hjL]
      have hRHS : (((convolve_full u K).take u.length).map (fun x : ℝ => (x : ℂ)))[j] =
          ((∑ m ∈ Finset.range (j + 1), u.getD m 0 * K.getD (j - m) 0 : ℝ) : ℂ) := by
        rw [List.getElem_map]
        congr 1
        simp only [List.getElem_take, convolve_full, List.getElem_map, List.getElem_range]
      rw [hRHS]
      push_cast
      apply Finset.sum_congr rfl
      intro m _
      rw [getD_map_ofReal, getD_map_ofReal]

/-- With the typo fixed, the CNN mode and RNN mode coincide exactly: the
direct mode of causal_convolution applied to the kernel K_conv returns
precisely the scan output from the zero state (the intended content of
test_cnn_is_rnn and C1). -/
theorem causal_convolution_direct_mode_eq_scan {n : ℕ} {F : Type} [Field F]
    (Ab : Matrix (Fin n) (Fin n) F) (Bb : Matrix (Fin n) (Fin 1) F)
    (Cb : Matrix (Fin 1) (Fin n) F) (u : List F) (hu : 1 ≤ u.length) :
    causal_convolution u (K_conv Ab Bb Cb u.length) true =
      Except.ok
        ((scan_SSM Ab Bb Cb (u.map (fun a _ => a)) (fun _ => 0)).2.map (fun v => v 0)) := by
  have hcond : ¬(u.length = 0 ∨ (K_conv Ab Bb Cb u.length).length = 0) := by
    simp only [K_conv, List.length_map, List.length_range]
    omega
  rw [causal_convolution_true_def, if_neg hcond, scan_SSM_eq_direct_convolution]

end SSM
